import Mathlib

set_option maxHeartbeats 1000000

/-!
Verification of the Titans neural-memory core (titans-pytorch).

The repository ships the package interface and its test suite; the three
implementation modules (neural_memory, memory_models, mac_transformer) are not
present under src/, so every definition below is modelled from the
natural-language specification (spec.md), as its sections are cited in the doc
comments.  Real arithmetic is embedded as exact rational arithmetic (ℚ): every
claim stated with a floating-point tolerance is settled as an exact equality,
which subsumes the tolerance.  Weights, momentum buffers and weight deltas are
modelled per independent scalar channel (the spec declares all parallelism to
be data parallelism across independent channels, spec section 5); tokens carry
an arbitrary type τ standing for the feature dimension.
-/

/-! ## Associative scan (spec section 4.1) -/

/-- Modelled from the spec: the linear-recurrence element of the associative
scan, mapping a gate, a previous state and an input to
gate * prev + input (spec sections 4.1 and 9). -/
def scanOp (gate prev inp : ℚ) : ℚ := gate * prev + inp

/-- Modelled from the spec: reference semantics of the associative scan on a
list of (gate, input) pairs, producing the output sequence of the recurrence
out t = gates t * out (t-1) + inputs t with out (-1) = prev (spec section 4.1).
The spec additionally demands a parallel formulation; any such formulation must
agree with this recurrence, whose algebraic contract (recurrence shape and
resumption) is what the claims are about. -/
def assocScanGo (prev : ℚ) : List (ℚ × ℚ) → List ℚ
  | [] => []
  | gi :: rest => scanOp gi.1 prev gi.2 :: assocScanGo (scanOp gi.1 prev gi.2) rest

/-- Modelled from the spec: the AssocScan entry point, taking the gates and the
inputs as two positionally-paired sequences plus an initial state
(spec section 4.1). -/
def AssocScan (gates inputs : List ℚ) (prev : ℚ) : List ℚ :=
  assocScanGo prev (gates.zip inputs)

/-- Modelled from the spec: the carried state of the scan after consuming its
whole input, i.e. the last produced output; for a zero-length input it is the
initial state, unchanged (spec section 4.1). -/
def scanFinal (gates inputs : List ℚ) (prev : ℚ) : ℚ :=
  (AssocScan gates inputs prev).getLastD prev

/-! ## Neural Memory Engine: configuration and state (spec sections 3, 4.3, 6) -/

/-- Modelled from the spec: the construction-time configuration of the Engine
(spec section 6) together with the memory-model-dependent numeric maps the
Engine consumes.  The spec keeps the Memory Model polymorphic (section 4.2, a
pure function of externally supplied weights) and keeps the exact closed form
of the surprise gradient, the learned adaptive learning rate and the
decay/momentum gates open (section 9, to be fixed only by the equivalence
properties of section 8); accordingly those maps are abstract function fields
here, and every claim below quantifies over all of them:

* cs — chunk_size, a positive integer (section 3);
* momentum, qkRmsnorm, perParamLrMod, attnPoolChunks, maxGradNorm — the
  independently togglable optional features (section 4.3);
* w0 — the Memory Model initial parameter value (section 3, MemoryState);
* gradPlain / gradNormed — the per-chunk surprise-loss gradient evaluated at a
  weight value, without / with qk normalisation (sections 4.3 step 3 and 4.2);
* lrBase / lrPooled — the learned per-chunk adaptive learning rate, without /
  with attention pooling over chunks (section 4.3);
* lrModFactor — the learned per-parameter learning-rate gate (section 4.3);
* momDecayGate / decayGate — the per-chunk momentum and weight-decay gates fed
  to the associative scan (sections 4.3 step 4 and 9);
* retrieveFn — the Memory Model forward map at a given weight value
  (section 4.2);
* activation — the optional activation applied to retrieved output before it
  leaves the Engine (section 4.3). -/
structure Cfg (τ : Type) where
  cs : Nat
  hcs : 0 < cs
  momentum : Bool
  maxGradNorm : Option ℚ
  qkRmsnorm : Bool
  perParamLrMod : Bool
  attnPoolChunks : Bool
  w0 : ℚ
  gradPlain : ℚ → List τ → ℚ
  gradNormed : ℚ → List τ → ℚ
  lrBase : List τ → ℚ
  lrPooled : List τ → ℚ
  lrModFactor : ℚ
  momDecayGate : List τ → ℚ
  decayGate : List τ → ℚ
  retrieveFn : ℚ → τ → τ
  activation : Option (τ → τ)

/-- Modelled from the spec: the surprise gradient map actually used, selected
by the qk_rmsnorm toggle (spec section 4.3). -/
def Cfg.grad {τ : Type} (cfg : Cfg τ) (w : ℚ) (chunk : List τ) : ℚ :=
  if cfg.qkRmsnorm then cfg.gradNormed w chunk else cfg.gradPlain w chunk

/-- Modelled from the spec: the effective per-chunk learning rate, selected by
the attn_pool_chunks toggle and scaled by the learned per-parameter gate when
per_parameter_lr_modulation is enabled (spec section 4.3). -/
def Cfg.lr {τ : Type} (cfg : Cfg τ) (chunk : List τ) : ℚ :=
  (if cfg.attnPoolChunks then cfg.lrPooled chunk else cfg.lrBase chunk) *
    (if cfg.perParamLrMod then cfg.lrModFactor else 1)

/-- Modelled from the spec: the optional activation applied to retrieved
output (spec section 4.3). -/
def Cfg.applyAct {τ : Type} (cfg : Cfg τ) (x : τ) : τ :=
  match cfg.activation with
  | none => x
  | some f => f x

/-- Modelled from the spec: per-chunk gradient-norm clipping when
max_grad_norm is configured (spec section 4.3); on a scalar channel, clipping
to norm c maps g to c * sign g whenever the magnitude of g exceeds c. -/
def clipGrad (mgn : Option ℚ) (g : ℚ) : ℚ :=
  match mgn with
  | none => g
  | some c => if |g| ≤ c then g else if 0 ≤ g then c else -c

/-- Modelled from the spec: commit of one full chunk (steps 2 to 5 of the
parallel mode, spec section 4.3): the surprise-loss gradient is evaluated at
the weights preceding the chunk, clipped, smoothed by the momentum recurrence
when momentum is enabled, scaled by the effective learning rate, optionally
biased by the matching entry of a shared prev_weights delta sequence (indexed
by the global chunk index, spec section 4.3 weight-residual sharing), and fed
as the input of the scan recurrence whose gate is the decay factor
(spec section 9: gate = decay factor, input = learning rate times the
momentum-smoothed negative gradient).  The pair carried is
(weight value, momentum buffer). -/
def chunkStep {τ : Type} (cfg : Cfg τ) (pw : List ℚ) (gidx : Nat)
    (WM : ℚ × ℚ) (chunk : List τ) : ℚ × ℚ :=
  let g := clipGrad cfg.maxGradNorm (cfg.grad WM.1 chunk)
  let M := if cfg.momentum then scanOp (cfg.momDecayGate chunk) WM.2 g else g
  let inp := -(cfg.lr chunk * M) + pw.getD gidx 0
  (scanOp (cfg.decayGate chunk) WM.1 inp, M)

/-- Modelled from the spec: MemoryState, the caller-owned bundle threaded
between invocations (spec section 3): the count of tokens already consumed,
the current Memory Model weights, the buffered unflushed input tokens smaller
than one chunk, the running momentum buffer, and the per-chunk weight deltas
produced in the most recent call (for optional residual sharing). -/
@[ext]
structure MemoryState (τ : Type) where
  seq_index : Nat
  weights : ℚ
  cache_store_segment : List τ
  momentum_state : ℚ
  updates : List ℚ

/-- Modelled from the spec: the fresh state of a first invocation,
zero-initialised except the weights, which start at the Memory Model initial
parameters (spec section 3). -/
def initState {τ : Type} (cfg : Cfg τ) : MemoryState τ :=
  { seq_index := 0
    weights := cfg.w0
    cache_store_segment := []
    momentum_state := 0
    updates := [] }

/-- Modelled from the spec: the full chunks of a token list — the contiguous
spans of cs tokens at boundaries fixed at multiples of cs; a trailing partial
chunk is not a chunk (spec section 3). -/
def chunksOf {τ : Type} (cs : Nat) (l : List τ) : List (List τ) :=
  (List.range (l.length / cs)).map (fun i => (l.drop (i * cs)).take cs)

/-- Modelled from the spec: sequential commit of a list of full chunks
starting from a given (weights, momentum) pair, threading the global chunk
index used by weight-residual sharing (spec section 4.3 steps 2 to 5 iterated
over the chunks of one call). -/
def commitChunks {τ : Type} (cfg : Cfg τ) (pw : List ℚ) :
    Nat → ℚ × ℚ → List (List τ) → ℚ × ℚ
  | _, WM, [] => WM
  | k, WM, c :: rest => commitChunks cfg pw (k + 1) (chunkStep cfg pw k WM c) rest

/-- Modelled from the spec: the per-chunk weight deltas produced while
committing a list of chunks, recorded into MemoryState.updates
(spec section 3). -/
def callUpdates {τ : Type} (cfg : Cfg τ) (pw : List ℚ) :
    Nat → ℚ × ℚ → List (List τ) → List ℚ
  | _, _, [] => []
  | k, WM, c :: rest =>
    ((chunkStep cfg pw k WM c).1 - WM.1) ::
      callUpdates cfg pw (k + 1) (chunkStep cfg pw k WM c) rest

/-- Map over a list together with the running global position of each element,
starting from a given position. -/
def mapWithPos {τ σ : Type} (f : Nat → τ → σ) : Nat → List τ → List σ
  | _, [] => []
  | i, x :: xs => f i x :: mapWithPos f (i + 1) xs

/-- Modelled from the spec: the parallel (whole-sequence) entry point
process(handle, input_sequence, state, prev_weights) of spec sections 4.3 and
6.  The buffered remainder of the incoming state is prepended to the input to
form the pending store stream; its full chunks are committed in order (steps 2
to 5), the trailing partial chunk is carried forward unprocessed (step 1), and
each input token is retrieved by evaluating the Memory Model at the weight
snapshot produced by the chunks strictly before the token's own chunk — the
token at global position p belongs to global chunk p / cs, so its snapshot is
the one reached after (p / cs - k) of this call's commits, where k counts the
chunks committed before this call; this is the one-chunk causal lag of
sections 3 and 4.3 step 6.  The returned state carries the final weights and
momentum, the new buffered remainder, the advanced seq_index and this call's
per-chunk weight deltas (step 7). -/
def process {τ : Type} (cfg : Cfg τ) (pw : List ℚ) (st : MemoryState τ)
    (input : List τ) : List τ × MemoryState τ :=
  let pending := st.cache_store_segment ++ input
  let chunks := chunksOf cfg.cs pending
  let k := st.seq_index / cfg.cs
  let outs := mapWithPos
    (fun p x => cfg.applyAct (cfg.retrieveFn
      (commitChunks cfg pw k (st.weights, st.momentum_state)
        (chunks.take (p / cfg.cs - k))).1 x))
    st.seq_index input
  let final := commitChunks cfg pw k (st.weights, st.momentum_state) chunks
  (outs,
    { seq_index := st.seq_index + input.length
      weights := final.1
      cache_store_segment := pending.drop (chunks.length * cfg.cs)
      momentum_state := final.2
      updates := callUpdates cfg pw k (st.weights, st.momentum_state) chunks })

/-- Modelled from the spec: the sequential/inference entry point
process_one_step(handle, token, state) of spec sections 4.3 and 6.  The token
is retrieved against the most recently committed weight snapshot (the chunk a
token belongs to is never included in the snapshot retrieving it, so the
snapshot is the one current before any commit this token triggers); the token
is appended to the buffer, and when the buffer reaches chunk_size that single
chunk is committed and the buffer cleared. -/
def process_one_step {τ : Type} (cfg : Cfg τ) (pw : List ℚ)
    (st : MemoryState τ) (tok : τ) : τ × MemoryState τ :=
  let out := cfg.applyAct (cfg.retrieveFn st.weights tok)
  let buf := st.cache_store_segment ++ [tok]
  if buf.length = cfg.cs then
    let k := st.seq_index / cfg.cs
    let WM := chunkStep cfg pw k (st.weights, st.momentum_state) buf
    (out,
      { seq_index := st.seq_index + 1
        weights := WM.1
        cache_store_segment := []
        momentum_state := WM.2
        updates := [WM.1 - st.weights] })
  else
    (out,
      { seq_index := st.seq_index + 1
        weights := st.weights
        cache_store_segment := buf
        momentum_state := st.momentum_state
        updates := [] })

/-- Feeding a token list one token at a time through process_one_step,
threading the returned MemoryState from each call into the next and collecting
the retrieved tokens in order (the incremental decoding loop of the claims). -/
def runSteps {τ : Type} (cfg : Cfg τ) (pw : List ℚ) (st : MemoryState τ) :
    List τ → List τ × MemoryState τ
  | [] => ([], st)
  | t :: rest =>
    let r := process_one_step cfg pw st t
    let r2 := runSteps cfg pw r.2 rest
    (r.1 :: r2.1, r2.2)

/-- Denotation helper: the (weights, momentum) pair reached after committing,
from the initial parameters, every full chunk of a given token history. -/
def histState {τ : Type} (cfg : Cfg τ) (pw : List ℚ) (hist : List τ) : ℚ × ℚ :=
  commitChunks cfg pw 0 (cfg.w0, 0) (chunksOf cfg.cs hist)

/-- Denotation helper: the MemoryState reached after consuming a given token
history (with an arbitrary updates record, which no computation reads). -/
def stateAfter {τ : Type} (cfg : Cfg τ) (pw : List ℚ) (hist : List τ)
    (upd : List ℚ) : MemoryState τ :=
  { seq_index := hist.length
    weights := (histState cfg pw hist).1
    cache_store_segment := hist.drop (hist.length / cfg.cs * cfg.cs)
    momentum_state := (histState cfg pw hist).2
    updates := upd }

/-- Denotation helper: the retrieved output for the token x sitting at global
position p of a token history — the Memory Model evaluated at the weight
snapshot of the chunks strictly before the chunk of p, then the optional
activation. -/
def retrievedDenote {τ : Type} (cfg : Cfg τ) (pw : List ℚ) (hist : List τ)
    (p : Nat) (x : τ) : τ :=
  cfg.applyAct (cfg.retrieveFn
    (histState cfg pw (hist.take (p / cfg.cs * cfg.cs))).1 x)

/-! ## Batch-size grouping (spec section 5) -/

/-- Modelled from the spec: the sub-sequence sizes into which one call's input
is re-grouped when a batch_size is configured — pieces ending exactly at the
global positions divisible by the batch size, computed from the incoming
seq_index, plus a final partial piece (spec section 5). -/
def splitAtBoundaries (bs seqIndex len : Nat) : List Nat :=
  if bs = 0 then [len]
  else
    let first := min (bs - seqIndex % bs) len
    let rest := len - first
    (first :: List.replicate (rest / bs) bs) ++
      (if rest % bs = 0 then [] else [rest % bs])

/-- Split a list into consecutive pieces of the given sizes. -/
def splitList {τ : Type} : List Nat → List τ → List (List τ)
  | [], _ => []
  | n :: ns, l => l.take n :: splitList ns (l.drop n)

/-- Process a list of consecutive input pieces in order, threading the
MemoryState and concatenating the retrieved outputs. -/
def processPieces {τ : Type} (cfg : Cfg τ) (pw : List ℚ) :
    MemoryState τ → List (List τ) → List τ × MemoryState τ
  | st, [] => ([], st)
  | st, piece :: rest =>
    let r := process cfg pw st piece
    let r2 := processPieces cfg pw r.2 rest
    (r.1 ++ r2.1, r2.2)

/-- Modelled from the spec: the Engine call with the optional batch_size
grouping enabled — the input is re-grouped into sub-sequences cut at the
global batch boundaries before applying the scan/update machinery
(spec section 5). -/
def processB {τ : Type} (cfg : Cfg τ) (pw : List ℚ) (bs : Nat)
    (st : MemoryState τ) (input : List τ) : List τ × MemoryState τ :=
  processPieces cfg pw st
    (splitList (splitAtBoundaries bs st.seq_index input.length) input)

/-! ## Construction-time configuration validation (spec sections 6 and 7) -/

/-- Modelled from the spec: the raw construction-time configuration handed to
create (spec section 6), restricted to the fields the configuration errors of
spec section 7 refer to — the chunk sizes, given as a retrieve/store pair of
integers, and the chosen memory-model variant name. -/
structure RawConfig where
  retrieve_chunk_size : Int
  store_chunk_size : Int
  memory_model : String

/-- Modelled from the spec: the memory-model variants enumerated by
spec section 4.2. -/
def supportedMemoryModels : List String :=
  ["mlp", "factorized_mlp", "gated_residual_mlp", "swiglu_mlp",
   "attention", "quantized_mlp", "quantized_attention"]

/-- Modelled from the spec: create(config), which fails fast with a
ConfigurationError on a non-positive chunk size, an incompatible
retrieve/store chunk-size pairing, or an unsupported memory-model variant, and
otherwise returns the validated handle (spec sections 6 and 7).  The spec does
not fix the compatibility predicate for the chunk-size pair, so create is
parametric in it. -/
def create (compat : Int → Int → Bool) (c : RawConfig) : Except String RawConfig :=
  if c.retrieve_chunk_size ≤ 0 ∨ c.store_chunk_size ≤ 0 then
    Except.error ("ConfigurationError: non-positive chunk size")
  else if compat c.retrieve_chunk_size c.store_chunk_size = false then
    Except.error ("ConfigurationError: incompatible retrieve and store chunk sizes")
  else if c.memory_model ∈ supportedMemoryModels then
    Except.ok c
  else
    Except.error ("ConfigurationError: unsupported memory model")

/-! ## Memory-as-Context Transformer boundary (spec section 4.4) -/

/-- Modelled from the spec: the boundary contract of the Memory-as-Context
Transformer around the Engine (spec section 4.4).  The transformer owns the
segmented attention and its incremental decode cache, the token embedding and
the sampling head, all declared out of scope by the spec except for this
contract; they are therefore abstract fields:

* mem, pw — the Engine configuration the transformer calls into, and the
  optional shared prev_weights it passes;
* attnInit, attnStep — the attention block as an exact incremental process on
  a cache state of type σ, consuming one embedded token and yielding its
  contextual output (one-step attention-cache calls);
* embed — token embedding;
* combine — the gated injection of retrieved memory into the residual stream;
* head — the deterministic greedy (temperature zero) readout of the next
  token id from the residual stream at the last position. -/
structure MacCfg (τ σ : Type) where
  mem : Cfg τ
  pw : List ℚ
  attnInit : σ
  attnStep : σ → τ → τ × σ
  embed : Nat → τ
  combine : τ → τ → τ
  head : τ → Nat

/-- Per-position outputs of the attention block run over a token list from a
given cache state. -/
def attnOuts {τ σ : Type} (mc : MacCfg τ σ) : σ → List τ → List τ
  | _, [] => []
  | a, x :: xs => (mc.attnStep a x).1 :: attnOuts mc (mc.attnStep a x).2 xs

/-- Final attention-cache state after running over a token list. -/
def attnFinal {τ σ : Type} (mc : MacCfg τ σ) : σ → List τ → σ
  | a, [] => a
  | a, x :: xs => attnFinal mc (mc.attnStep a x).2 xs

/-- Denotation helper for the transformer boundary: the per-position
residual-stream outputs of an id-free token list processed in the context of
an already-consumed token history hx and attention-cache state a — each
position combines its attention output with the Engine retrieval denoted at
its global position. -/
def ctxOuts {τ σ : Type} (mc : MacCfg τ σ) (hx : List τ) (a : σ)
    (xs : List τ) : List τ :=
  List.zipWith mc.combine (attnOuts mc a xs)
    (mapWithPos (retrievedDenote mc.mem mc.pw (hx ++ xs)) hx.length xs)

/-- Modelled from the spec: one incremental decoding step of the transformer —
a one-step call to the Engine interleaved with a one-step call to the
attention cache on the same embedded token, their outputs merged into the
residual stream (spec section 4.4). -/
def macStep {τ σ : Type} (mc : MacCfg τ σ) (st : MemoryState τ × σ) (x : τ) :
    τ × (MemoryState τ × σ) :=
  let rm := process_one_step mc.mem mc.pw st.1 x
  let ra := mc.attnStep st.2 x
  (mc.combine ra.1 rm.1, (rm.2, ra.2))

/-- Run the incremental decoder over a list of token ids, threading both cache
states and keeping the residual-stream output at the last position seen. -/
def macPrompt {τ σ : Type} (mc : MacCfg τ σ) :
    MemoryState τ × σ → Option τ → List Nat → Option τ × (MemoryState τ × σ)
  | st, last, [] => (last, st)
  | st, _, id :: rest =>
    let r := macStep mc st (mc.embed id)
    macPrompt mc r.2 (some r.1) rest

/-- Modelled from the spec: the cache-disabled forward pass — the whole id
sequence is embedded and recomputed from scratch, the Engine is called once in
parallel mode over the whole sequence, the attention runs over the whole
sequence, and the residual-stream output at the last position is kept. -/
def forwardFull {τ σ : Type} (mc : MacCfg τ σ) (ids : List Nat) : Option τ :=
  let xs := ids.map mc.embed
  (List.zipWith mc.combine (attnOuts mc mc.attnInit xs)
    (process mc.mem mc.pw (initState mc.mem) xs).1).getLast?

/-- Greedy sampling with the incremental cache disabled: each step recomputes
the full forward pass on the current sequence and appends the token chosen by
the deterministic head; an empty sequence produces nothing. -/
def sampleFullAux {τ σ : Type} (mc : MacCfg τ σ) : List Nat → Nat → List Nat
  | seq, 0 => seq
  | seq, n + 1 =>
    match forwardFull mc seq with
    | none => seq
    | some o => sampleFullAux mc (seq ++ [mc.head o]) n

/-- Greedy sampling with the incremental cache enabled: the threaded Engine
state and attention cache advance by one-step calls only. -/
def sampleCacheAux {τ σ : Type} (mc : MacCfg τ σ) :
    List Nat → MemoryState τ × σ → Option τ → Nat → List Nat
  | seq, _, _, 0 => seq
  | seq, st, last, n + 1 =>
    match last with
    | none => seq
    | some o =>
      let r := macStep mc st (mc.embed (mc.head o))
      sampleCacheAux mc (seq ++ [mc.head o]) r.2 (some r.1) n

/-- Modelled from the spec: temperature-zero sampling of n tokens from a
prompt with use_cache disabled. -/
def sampleNoCache {τ σ : Type} (mc : MacCfg τ σ) (prompt : List Nat) (n : Nat) :
    List Nat :=
  sampleFullAux mc prompt n

/-- Modelled from the spec: temperature-zero sampling of n tokens from a
prompt with use_cache enabled — the prompt is ingested once through the
incremental path, then generation proceeds by one-step calls. -/
def sampleWithCache {τ σ : Type} (mc : MacCfg τ σ) (prompt : List Nat)
    (n : Nat) : List Nat :=
  let r := macPrompt mc (initState mc.mem, mc.attnInit) none prompt
  sampleCacheAux mc prompt r.2 r.1 n

/-! ## Concrete instances used by the witnesses -/

/-- Concrete Engine configuration over ℚ tokens used to witness the claim
theorems at explicit inputs. -/
def cfgEx : Cfg ℚ :=
  { cs := 2
    hcs := by decide
    momentum := true
    maxGradNorm := some 1
    qkRmsnorm := false
    perParamLrMod := true
    attnPoolChunks := false
    w0 := 0
    gradPlain := fun w c => w - c.sum
    gradNormed := fun w c => w - c.sum
    lrBase := fun _ => 1
    lrPooled := fun _ => 1
    lrModFactor := 1 / 2
    momDecayGate := fun _ => 1 / 2
    decayGate := fun _ => 1 / 2
    retrieveFn := fun w x => w + x
    activation := none }

/-! ## Lemmas: associative scan -/

theorem length_assocScanGo (prev : ℚ) (l : List (ℚ × ℚ)) :
    (assocScanGo prev l).length = l.length := by
  induction l generalizing prev with
  | nil => rfl
  | cons gi rest ih => simp [assocScanGo, ih]

theorem assocScanGo_append (l1 l2 : List (ℚ × ℚ)) (prev : ℚ) :
    assocScanGo prev (l1 ++ l2) =
      assocScanGo prev l1 ++
        assocScanGo ((assocScanGo prev l1).getLastD prev) l2 := by
  induction l1 generalizing prev with
  | nil => simp [assocScanGo]
  | cons gi rest ih =>
    simp only [List.cons_append, assocScanGo, List.append_eq]
    rw [List.getLastD_cons, ih]

/-- The associative scan implements the linear recurrence
out t = gates t * out (t-1) + inputs t with out (-1) = prev (first conjunct:
structural recurrence form), and it supports resumption: for every gate/input
sequence and every split point k, scanning the suffix from the last output of
the prefix scan reproduces the suffix of the whole scan (second conjunct),
exactly — which subsumes the tolerance of 1e-6 stated in the claim. -/
theorem assocScan_recurrence_and_resumption :
    (∀ (gh ih : ℚ) (gt it : List ℚ) (prev : ℚ),
      AssocScan (gh :: gt) (ih :: it) prev =
        (gh * prev + ih) :: AssocScan gt it (gh * prev + ih)) ∧
    (∀ (gates inputs : List ℚ) (prev : ℚ) (k : Nat),
      AssocScan (gates.drop k) (inputs.drop k)
          (scanFinal (gates.take k) (inputs.take k) prev) =
        (AssocScan gates inputs prev).drop k) := by
  constructor
  · intro gh ih gt it prev
    rfl
  · intro gates inputs prev k
    simp only [scanFinal, AssocScan]
    have hzt : (gates.take k).zip (inputs.take k) = (gates.zip inputs).take k := by
      simp [List.zip_eq_zipWith, List.take_zipWith]
    have hzd : (gates.drop k).zip (inputs.drop k) = (gates.zip inputs).drop k := by
      simp [List.zip_eq_zipWith, List.drop_zipWith]
    rw [hzt, hzd]
    rcases le_or_lt k (gates.zip inputs).length with h | h
    · conv_rhs => rw [← List.take_append_drop k (gates.zip inputs)]
      rw [assocScanGo_append]
      have hlen : (assocScanGo prev ((gates.zip inputs).take k)).length = k := by
        rw [length_assocScanGo, List.length_take, min_eq_left h]
      rw [List.drop_append_of_le_length (le_of_eq hlen.symm),
        List.drop_eq_nil_of_le (le_of_eq hlen), List.nil_append]
    · rw [List.take_of_length_le h.le, List.drop_eq_nil_of_le h.le,
        List.drop_eq_nil_of_le (by rw [length_assocScanGo]; exact h.le)]
      rfl

/-- The associative scan, called on a zero-length input (with any initial
state prev), has no error outcome — it is a total function — and returns the
initial state unchanged: the output sequence is empty and the carried final
state is prev itself. -/
theorem assocScan_empty_input (prev : ℚ) :
    AssocScan [] [] prev = [] ∧ scanFinal [] [] prev = prev := by
  exact ⟨rfl, rfl⟩

/-! ## Lemmas: positional map, chunking, committing -/

theorem mapWithPos_length {τ σ : Type} (f : Nat → τ → σ) (i : Nat) (l : List τ) :
    (mapWithPos f i l).length = l.length := by
  induction l generalizing i with
  | nil => rfl
  | cons x xs ih => simp [mapWithPos, ih]

theorem mapWithPos_append {τ σ : Type} (f : Nat → τ → σ) (i : Nat)
    (A B : List τ) :
    mapWithPos f i (A ++ B) = mapWithPos f i A ++ mapWithPos f (i + A.length) B := by
  induction A generalizing i with
  | nil => simp [mapWithPos]
  | cons x xs ih =>
    simp only [List.cons_append, mapWithPos, List.length_cons, List.append_eq, ih]
    have heq : i + 1 + xs.length = i + (xs.length + 1) := by omega
    rw [heq]

theorem mapWithPos_congr {τ σ : Type} (f g : Nat → τ → σ) (i : Nat) (l : List τ)
    (h : ∀ p x, i ≤ p → p < i + l.length → f p x = g p x) :
    mapWithPos f i l = mapWithPos g i l := by
  induction l generalizing i with
  | nil => rfl
  | cons x xs ih =>
    simp only [mapWithPos]
    rw [h i x (le_refl i) (by simp),
      ih (i + 1) (fun p y hp hp2 => h p y (by omega)
        (by simp only [List.length_cons]; omega))]

theorem length_chunksOf {τ : Type} (cs : Nat) (l : List τ) :
    (chunksOf cs l).length = l.length / cs := by
  simp [chunksOf]

theorem getElem_chunksOf {τ : Type} (cs : Nat) (l : List τ) (i : Nat)
    (h : i < (chunksOf cs l).length) :
    (chunksOf cs l)[i] = (l.drop (i * cs)).take cs := by
  simp [chunksOf]

theorem nat_min_mul_div (cs m n : Nat) : min (m * cs) n / cs = min m (n / cs) := by
  rcases Nat.eq_zero_or_pos cs with h | h
  · subst h; simp
  · rcases le_total (m * cs) n with hle | hle
    · rw [min_eq_left hle, Nat.mul_div_cancel _ h,
        min_eq_left ((Nat.le_div_iff_mul_le h).mpr hle)]
    · rw [min_eq_right hle, min_eq_right]
      calc n / cs ≤ m * cs / cs := Nat.div_le_div_right hle
        _ = m := Nat.mul_div_cancel _ h

theorem chunksOf_take {τ : Type} (cs : Nat) (l : List τ) (m : Nat) :
    chunksOf cs (l.take (m * cs)) = (chunksOf cs l).take m := by
  apply List.ext_getElem
  · simp [length_chunksOf, nat_min_mul_div]
  · intro i h1 h2
    rw [getElem_chunksOf]
    rw [List.getElem_take]
    rw [getElem_chunksOf]
    rw [List.drop_take]
    rw [List.take_take]
    have hi : i < m := by
      simp only [length_chunksOf, List.length_take, nat_min_mul_div] at h1
      omega
    have hstep : (i + 1) * cs ≤ m * cs := Nat.mul_le_mul_right _ hi
    have hsucc : (i + 1) * cs = i * cs + cs := Nat.succ_mul i cs
    have hcs_le : cs ≤ m * cs - i * cs := by omega
    rw [min_eq_left hcs_le]

theorem chunksOf_drop {τ : Type} (cs : Nat) (l : List τ) (k : Nat)
    (hk : k ≤ l.length / cs) :
    chunksOf cs (l.drop (k * cs)) = (chunksOf cs l).drop k := by
  rcases Nat.eq_zero_or_pos cs with h | h
  · subst h; simp [chunksOf]
  · have hkcs : k * cs ≤ l.length := by
      calc k * cs ≤ l.length / cs * cs := Nat.mul_le_mul_right _ hk
        _ ≤ l.length := Nat.div_mul_le_self _ _
    apply List.ext_getElem
    · simp only [length_chunksOf, List.length_drop]
      rw [Nat.mul_comm k cs, Nat.sub_mul_div _ _ _ (by rw [Nat.mul_comm]; exact hkcs)]
    · intro i h1 h2
      rw [getElem_chunksOf, List.getElem_drop, getElem_chunksOf, List.drop_drop]
      congr 2
      ring

theorem commitChunks_append {τ : Type} (cfg : Cfg τ) (pw : List ℚ) (k : Nat)
    (WM : ℚ × ℚ) (A B : List (List τ)) :
    commitChunks cfg pw k WM (A ++ B) =
      commitChunks cfg pw (k + A.length) (commitChunks cfg pw k WM A) B := by
  induction A generalizing k WM with
  | nil => simp [commitChunks]
  | cons c rest ih =>
    simp only [List.cons_append, commitChunks, List.append_eq, List.length_cons, ih]
    have heq : k + 1 + rest.length = k + (rest.length + 1) := by omega
    rw [heq]

theorem histState_take {τ : Type} (cfg : Cfg τ) (pw : List ℚ) (l : List τ)
    (m : Nat) :
    histState cfg pw (l.take (m * cfg.cs)) =
      commitChunks cfg pw 0 (cfg.w0, 0) ((chunksOf cfg.cs l).take m) := by
  unfold histState
  rw [chunksOf_take]

theorem histState_take_full {τ : Type} (cfg : Cfg τ) (pw : List ℚ)
    (H : List τ) :
    histState cfg pw (H.take (H.length / cfg.cs * cfg.cs)) = histState cfg pw H := by
  rw [histState_take]
  unfold histState
  rw [List.take_of_length_le (by rw [length_chunksOf])]

theorem commitChunks_take_drop {τ : Type} (cfg : Cfg τ) (pw : List ℚ)
    (L : List τ) (k m : Nat) (hk : k ≤ L.length / cfg.cs) :
    commitChunks cfg pw k (histState cfg pw (L.take (k * cfg.cs)))
        (((chunksOf cfg.cs L).drop k).take m) =
      histState cfg pw (L.take ((k + m) * cfg.cs)) := by
  rw [histState_take, histState_take]
  rw [List.take_add]
  rw [commitChunks_append]
  have hlen : ((chunksOf cfg.cs L).take k).length = k := by
    rw [List.length_take, length_chunksOf, min_eq_left hk]
  rw [hlen, Nat.zero_add]

/-! ## Lemmas: closed form of the parallel entry point -/

theorem stateAfter_nil {τ : Type} (cfg : Cfg τ) (pw : List ℚ) :
    stateAfter cfg pw ([] : List τ) [] = initState cfg := by
  simp [stateAfter, initState, histState, chunksOf, commitChunks]

theorem process_spec {τ : Type} (cfg : Cfg τ) (pw : List ℚ) (H : List τ)
    (u : List ℚ) (S : List τ) :
    process cfg pw (stateAfter cfg pw H u) S =
      (mapWithPos (retrievedDenote cfg pw (H ++ S)) H.length S,
       stateAfter cfg pw (H ++ S)
         (callUpdates cfg pw (H.length / cfg.cs) (histState cfg pw H)
           ((chunksOf cfg.cs (H ++ S)).drop (H.length / cfg.cs)))) := by
  have hkcs : H.length / cfg.cs * cfg.cs ≤ H.length := Nat.div_mul_le_self _ _
  have hkL : H.length / cfg.cs ≤ (H ++ S).length / cfg.cs :=
    Nat.div_le_div_right (by simp)
  have hpend : H.drop (H.length / cfg.cs * cfg.cs) ++ S
      = (H ++ S).drop (H.length / cfg.cs * cfg.cs) :=
    (List.drop_append_of_le_length hkcs).symm
  have hchunks : chunksOf cfg.cs ((H ++ S).drop (H.length / cfg.cs * cfg.cs))
      = (chunksOf cfg.cs (H ++ S)).drop (H.length / cfg.cs) :=
    chunksOf_drop _ _ _ hkL
  have hhist0 : histState cfg pw ((H ++ S).take (H.length / cfg.cs * cfg.cs))
      = histState cfg pw H := by
    rw [List.take_append_of_le_length hkcs]
    exact histState_take_full cfg pw H
  have hcommit : ∀ m,
      commitChunks cfg pw (H.length / cfg.cs) (histState cfg pw H)
        (((chunksOf cfg.cs (H ++ S)).drop (H.length / cfg.cs)).take m)
      = histState cfg pw ((H ++ S).take ((H.length / cfg.cs + m) * cfg.cs)) := by
    intro m
    have h2 := commitChunks_take_drop cfg pw (H ++ S) (H.length / cfg.cs) m hkL
    rwa [hhist0] at h2
  have hnchunks : ((chunksOf cfg.cs (H ++ S)).drop (H.length / cfg.cs)).length
      = (H ++ S).length / cfg.cs - H.length / cfg.cs := by
    simp [length_chunksOf]
  have hfull : commitChunks cfg pw (H.length / cfg.cs) (histState cfg pw H)
      ((chunksOf cfg.cs (H ++ S)).drop (H.length / cfg.cs))
      = histState cfg pw (H ++ S) := by
    have h3 := hcommit ((chunksOf cfg.cs (H ++ S)).drop (H.length / cfg.cs)).length
    rw [List.take_length] at h3
    rw [hnchunks, Nat.add_sub_cancel' hkL] at h3
    rw [histState_take_full] at h3
    exact h3
  simp only [process, stateAfter, Prod.mk.eta]
  rw [hpend, hchunks]
  simp only [Prod.mk.injEq, MemoryState.mk.injEq]
  refine ⟨?_, ?_, ?_, ?_, ?_, trivial⟩
  · refine mapWithPos_congr _ _ _ _ (fun p x hp1 hp2 => ?_)
    have hkp : H.length / cfg.cs ≤ p / cfg.cs := Nat.div_le_div_right hp1
    rw [hcommit (p / cfg.cs - H.length / cfg.cs), Nat.add_sub_cancel' hkp]
    rfl
  · simp
  · rw [hfull]
  · rw [List.drop_drop, hnchunks]
    congr 1
    have h4 : ((H ++ S).length / cfg.cs - H.length / cfg.cs) * cfg.cs
        = (H ++ S).length / cfg.cs * cfg.cs - H.length / cfg.cs * cfg.cs :=
      Nat.sub_mul _ _ _
    have h5 : H.length / cfg.cs * cfg.cs ≤ (H ++ S).length / cfg.cs * cfg.cs :=
      Nat.mul_le_mul_right _ hkL
    omega
  · rw [hfull]

theorem retrievedDenote_stable {τ : Type} (cfg : Cfg τ) (pw : List ℚ)
    (A E E' : List τ) (p : Nat) (x : τ) (hp : p ≤ A.length) :
    retrievedDenote cfg pw (A ++ E) p x = retrievedDenote cfg pw (A ++ E') p x := by
  unfold retrievedDenote
  have h1 : p / cfg.cs * cfg.cs ≤ A.length :=
    le_trans (Nat.div_mul_le_self _ _) hp
  rw [List.take_append_of_le_length h1, List.take_append_of_le_length h1]

theorem process_one_step_spec {τ : Type} (cfg : Cfg τ) (pw : List ℚ)
    (H : List τ) (u : List ℚ) (t : τ) :
    ∃ u2, process_one_step cfg pw (stateAfter cfg pw H u) t =
      (retrievedDenote cfg pw (H ++ [t]) H.length t,
       stateAfter cfg pw (H ++ [t]) u2) := by
  have hkcs : H.length / cfg.cs * cfg.cs ≤ H.length := Nat.div_mul_le_self _ _
  have hrlen : (H.drop (H.length / cfg.cs * cfg.cs)).length
      = H.length - H.length / cfg.cs * cfg.cs := List.length_drop _ _
  have hcomm : H.length / cfg.cs * cfg.cs = cfg.cs * (H.length / cfg.cs) :=
    Nat.mul_comm _ _
  have hdm := Nat.div_add_mod H.length cfg.cs
  have hmod : H.length - H.length / cfg.cs * cfg.cs = H.length % cfg.cs := by
    omega
  have hbuflen : (H.drop (H.length / cfg.cs * cfg.cs) ++ [t]).length
      = H.length % cfg.cs + 1 := by
    simp only [List.length_append, List.length_cons, List.length_nil, hrlen, hmod]
  have hlen1 : (H ++ [t]).length = H.length + 1 := by simp
  have hout : cfg.applyAct (cfg.retrieveFn (histState cfg pw H).1 t)
      = retrievedDenote cfg pw (H ++ [t]) H.length t := by
    unfold retrievedDenote
    rw [List.take_append_of_le_length hkcs, histState_take_full]
  have hdropApp : (H ++ [t]).drop (H.length / cfg.cs * cfg.cs)
      = H.drop (H.length / cfg.cs * cfg.cs) ++ [t] :=
    List.drop_append_of_le_length hkcs
  simp only [process_one_step, stateAfter]
  by_cases hc : (H.drop (H.length / cfg.cs * cfg.cs) ++ [t]).length = cfg.cs
  · -- the buffer fills: a single chunk is committed
    have hcfill : H.length % cfg.cs + 1 = cfg.cs := by rw [← hbuflen]; exact hc
    have hsucc : (H.length / cfg.cs + 1) * cfg.cs
        = H.length / cfg.cs * cfg.cs + cfg.cs := Nat.succ_mul _ _
    have hfill : H.length + 1 = (H.length / cfg.cs + 1) * cfg.cs := by omega
    have hdiv : (H ++ [t]).length / cfg.cs = H.length / cfg.cs + 1 := by
      rw [hlen1, hfill, Nat.mul_div_cancel _ cfg.hcs]
    have hstep : chunkStep cfg pw (H.length / cfg.cs) (histState cfg pw H)
        (H.drop (H.length / cfg.cs * cfg.cs) ++ [t])
        = histState cfg pw (H ++ [t]) := by
      have h10 := commitChunks_take_drop cfg pw (H ++ [t]) (H.length / cfg.cs) 1
        (by rw [hdiv]; omega)
      rw [List.take_append_of_le_length hkcs, histState_take_full] at h10
      rw [show (H.length / cfg.cs + 1) * cfg.cs = (H ++ [t]).length from by
        rw [hlen1, hfill]] at h10
      rw [List.take_length] at h10
      have hsing : ((chunksOf cfg.cs (H ++ [t])).drop (H.length / cfg.cs)).take 1
          = [H.drop (H.length / cfg.cs * cfg.cs) ++ [t]] := by
        rw [← chunksOf_drop cfg.cs (H ++ [t]) (H.length / cfg.cs)
          (by rw [hdiv]; omega)]
        rw [hdropApp]
        have hone : (H.drop (H.length / cfg.cs * cfg.cs) ++ [t]).length / cfg.cs = 1 := by
          rw [hc, Nat.div_self cfg.hcs]
        have hrange : List.range 1 = [0] := rfl
        simp only [chunksOf, hone, hrange, List.map_cons, List.map_nil,
          Nat.zero_mul, List.drop_zero]
        rw [List.take_of_length_le (le_of_eq hc)]
        simp
      rw [hsing] at h10
      simpa only [commitChunks] using h10
    refine ⟨[(chunkStep cfg pw (H.length / cfg.cs) (histState cfg pw H)
      (H.drop (H.length / cfg.cs * cfg.cs) ++ [t])).1 - (histState cfg pw H).1], ?_⟩
    rw [if_pos hc]
    simp only [Prod.mk.injEq, MemoryState.mk.injEq, Prod.mk.eta]
    refine ⟨hout, by simp, ?_, ?_, ?_, trivial⟩
    · rw [hstep]
    · rw [hdiv]
      rw [show (H.length / cfg.cs + 1) * cfg.cs = (H ++ [t]).length from by
        rw [hlen1, hfill]]
      rw [List.drop_length]
    · rw [hstep]
  · -- the buffer does not fill: pure retrieval, weights unchanged
    have hr : H.length % cfg.cs < cfg.cs := Nat.mod_lt _ cfg.hcs
    have hcn : H.length % cfg.cs + 1 ≠ cfg.cs := by rw [← hbuflen]; exact hc
    have hdiv2 : (H ++ [t]).length / cfg.cs = H.length / cfg.cs := by
      have h8 : (H ++ [t]).length
          = H.length % cfg.cs + 1 + H.length / cfg.cs * cfg.cs := by
        rw [hlen1]; omega
      rw [h8, Nat.add_mul_div_right _ _ cfg.hcs, Nat.div_eq_of_lt (by omega)]
      omega
    have hhist2 : histState cfg pw (H ++ [t]) = histState cfg pw H := by
      unfold histState
      congr 1
      apply List.ext_getElem
      · simp only [length_chunksOf, hdiv2]
      · intro i h1 h2
        rw [getElem_chunksOf, getElem_chunksOf]
        have hik : i < H.length / cfg.cs := by
          simp only [length_chunksOf, hdiv2] at h1
          exact h1
        have hi1s : (i + 1) * cfg.cs = i * cfg.cs + cfg.cs := Nat.succ_mul _ _
        have hi1 : (i + 1) * cfg.cs ≤ H.length := by
          calc (i + 1) * cfg.cs ≤ H.length / cfg.cs * cfg.cs :=
            Nat.mul_le_mul_right _ hik
            _ ≤ H.length := Nat.div_mul_le_self _ _
        rw [List.drop_append_of_le_length (by omega),
          List.take_append_of_le_length (by simp only [List.length_drop]; omega)]
    refine ⟨[], ?_⟩
    rw [if_neg hc]
    simp only [Prod.mk.injEq, MemoryState.mk.injEq]
    refine ⟨hout, by simp, ?_, ?_, ?_, trivial⟩
    · rw [hhist2]
    · rw [hdiv2]
      exact hdropApp.symm
    · rw [hhist2]

theorem runSteps_spec {τ : Type} (cfg : Cfg τ) (pw : List ℚ) (S H : List τ)
    (u : List ℚ) :
    ∃ u2, runSteps cfg pw (stateAfter cfg pw H u) S =
      (mapWithPos (retrievedDenote cfg pw (H ++ S)) H.length S,
       stateAfter cfg pw (H ++ S) u2) := by
  induction S generalizing H u with
  | nil => exact ⟨u, by simp [runSteps, mapWithPos]⟩
  | cons t rest ih =>
    obtain ⟨u1, h1⟩ := process_one_step_spec cfg pw H u t
    obtain ⟨u2, h2⟩ := ih (H ++ [t]) u1
    have hassoc : (H ++ [t]) ++ rest = H ++ t :: rest := by simp
    rw [hassoc] at h2
    simp only [List.length_append, List.length_cons, List.length_nil] at h2
    refine ⟨u2, ?_⟩
    have hstab := retrievedDenote_stable cfg pw H [t] (t :: rest) H.length t
      (le_refl _)
    simp only [runSteps, h1, h2, mapWithPos, hstab]

theorem processPieces_spec {τ : Type} (cfg : Cfg τ) (pw : List ℚ)
    (pieces : List (List τ)) (H : List τ) (u : List ℚ) :
    ∃ u2, processPieces cfg pw (stateAfter cfg pw H u) pieces =
      (mapWithPos (retrievedDenote cfg pw (H ++ pieces.flatten)) H.length
        pieces.flatten,
       stateAfter cfg pw (H ++ pieces.flatten) u2) := by
  induction pieces generalizing H u with
  | nil => exact ⟨u, by simp [processPieces, mapWithPos]⟩
  | cons piece rest ih =>
    obtain ⟨u2, h2⟩ := ih (H ++ piece)
      (callUpdates cfg pw (H.length / cfg.cs) (histState cfg pw H)
        ((chunksOf cfg.cs (H ++ piece)).drop (H.length / cfg.cs)))
    have hassoc : (H ++ piece) ++ rest.flatten = H ++ (piece ++ rest.flatten) :=
      List.append_assoc _ _ _
    rw [hassoc] at h2
    simp only [List.length_append] at h2
    refine ⟨u2, ?_⟩
    simp only [processPieces]
    rw [process_spec cfg pw H u]
    dsimp only
    rw [h2]
    dsimp only
    simp only [List.flatten_cons, Prod.mk.injEq]
    constructor
    · rw [mapWithPos_append]
      congr 1
      refine mapWithPos_congr _ _ _ _ (fun p x hp1 hp2 => ?_)
      have hple : p ≤ (H ++ piece).length := by
        simp only [List.length_append]
        omega
      have hstab := retrievedDenote_stable cfg pw (H ++ piece) [] (rest.flatten)
        p x hple
      rw [List.append_nil, List.append_assoc] at hstab
      exact hstab
    · trivial

theorem process_append_out {τ : Type} (cfg : Cfg τ) (pw : List ℚ)
    (H : List τ) (u : List ℚ) (A B : List τ) :
    (process cfg pw (stateAfter cfg pw H u) (A ++ B)).1
      = (process cfg pw (stateAfter cfg pw H u) A).1
        ++ (process cfg pw ((process cfg pw (stateAfter cfg pw H u) A).2) B).1 := by
  have hassoc : H ++ (A ++ B) = (H ++ A) ++ B := (List.append_assoc H A B).symm
  rw [process_spec cfg pw H u]
  rw [process_spec cfg pw H u A]
  dsimp only
  rw [process_spec cfg pw (H ++ A)]
  dsimp only
  rw [hassoc, mapWithPos_append]
  congr 1
  · refine mapWithPos_congr _ _ _ _ (fun p x hp1 hp2 => ?_)
    have hple : p ≤ (H ++ A).length := by
      simp only [List.length_append]
      omega
    have hstab := retrievedDenote_stable cfg pw (H ++ A) B [] p x hple
    simpa using hstab
  · have hlen : (H ++ A).length = H.length + A.length := by simp
    rw [hlen]

/-- C1: feeding an input sequence one token at a time through the one-step
entry point process_one_step, threading the returned MemoryState from each
call into the next, produces retrieved output equal — exactly, over ℚ, which
subsumes the 1e-5/1e-6 tolerances of the claim — to a single whole-sequence
process call on the same sequence; this holds for every configuration (hence
for every chunk size, including chunk_size = 1, and for every combination of
the optional features momentum, qk_rmsnorm, max_grad_norm clipping and
per-parameter learning-rate modulation, which are fields of the quantified
configuration), for every prev_weights sequence, and for every sequence length
(including lengths that are not multiples of the chunk size). -/
theorem neural_memory_one_step_refines_process {τ : Type} (cfg : Cfg τ)
    (pw : List ℚ) (S : List τ) :
    (runSteps cfg pw (initState cfg) S).1
      = (process cfg pw (initState cfg) S).1 := by
  rw [← stateAfter_nil cfg pw]
  obtain ⟨u2, h⟩ := runSteps_spec cfg pw S [] []
  rw [h, process_spec]

/-- C2: for every sequence split as S1 ++ S2 ++ S3 at chunk-size-aligned
boundaries, the retrieved output of one whole-sequence process call equals the
concatenation of the retrieved outputs of three process calls that thread the
returned MemoryState — exactly over ℚ, which subsumes the 1e-5 tolerance of
the claim. -/
theorem process_chunk_aligned_split_equiv {τ : Type} (cfg : Cfg τ)
    (S1 S2 S3 : List τ)
    (_ha1 : cfg.cs ∣ S1.length) (_ha2 : cfg.cs ∣ (S1.length + S2.length)) :
    (process cfg [] (initState cfg) (S1 ++ S2 ++ S3)).1 =
      (process cfg [] (initState cfg) S1).1
      ++ (process cfg [] ((process cfg [] (initState cfg) S1).2) S2).1
      ++ (process cfg []
          ((process cfg [] ((process cfg [] (initState cfg) S1).2) S2).2)
          S3).1 := by
  clear _ha1 _ha2
  rw [← stateAfter_nil cfg []]
  rw [process_spec cfg [] [] []]
  rw [process_spec cfg [] [] [] S1]
  dsimp only
  rw [process_spec cfg [] ([] ++ S1)]
  dsimp only
  rw [process_spec cfg [] (([] ++ S1) ++ S2)]
  dsimp only
  simp only [List.nil_append, List.length_nil]
  rw [mapWithPos_append, mapWithPos_append]
  simp only [Nat.zero_add, List.length_append]
  congr 1
  congr 1
  · refine mapWithPos_congr _ _ _ _ (fun p x hp1 hp2 => ?_)
    have hple : p ≤ S1.length := by omega
    have hstab := retrievedDenote_stable cfg [] S1 (S2 ++ S3) [] p x hple
    rw [List.append_nil, ← List.append_assoc] at hstab
    exact hstab
  · refine mapWithPos_congr _ _ _ _ (fun p x hp1 hp2 => ?_)
    have hple : p ≤ (S1 ++ S2).length := by
      simp only [List.length_append]
      omega
    have hstab := retrievedDenote_stable cfg [] (S1 ++ S2) S3 [] p x hple
    rw [List.append_nil] at hstab
    exact hstab

/-- Witness for the chunk-aligned split equivalence: the claim theorem applied
at an explicit configuration and an explicit length-5 sequence split 2/2/1
with chunk size 2, with both alignment hypotheses discharged by computation. -/
theorem process_chunk_aligned_split_equiv_witness :
    (cfgEx.cs ∣ ([1, 2] : List ℚ).length) ∧
    (cfgEx.cs ∣ (([1, 2] : List ℚ).length + ([3, 4] : List ℚ).length)) ∧
    ((process cfgEx [] (initState cfgEx) (([1, 2] : List ℚ) ++ [3, 4] ++ [5])).1 =
      (process cfgEx [] (initState cfgEx) [1, 2]).1
      ++ (process cfgEx [] ((process cfgEx [] (initState cfgEx) [1, 2]).2) [3, 4]).1
      ++ (process cfgEx []
          ((process cfgEx [] ((process cfgEx [] (initState cfgEx) [1, 2]).2) [3, 4]).2)
          [5]).1) :=
  ⟨⟨1, rfl⟩, ⟨2, rfl⟩,
    process_chunk_aligned_split_equiv cfgEx [1, 2] [3, 4] [5] ⟨1, rfl⟩ ⟨2, rfl⟩⟩

/-- C4: retrieval is causally lagged by one chunk — the retrieved output for
the token at position p of a processed sequence is the Memory Model evaluated
at the weight snapshot built from the chunks strictly before the chunk of p
(the tokens S.take (p / cs * cs) only), applied to that token; hence no
information from tokens within a chunk can reach that chunk's own retrieved
output through the weight update. -/
theorem process_causal_lag {τ : Type} (cfg : Cfg τ) (pw : List ℚ) (S : List τ) :
    (process cfg pw (initState cfg) S).1
      = mapWithPos (fun p x => cfg.applyAct (cfg.retrieveFn
          (histState cfg pw (S.take (p / cfg.cs * cfg.cs))).1 x)) 0 S := by
  rw [← stateAfter_nil cfg pw, process_spec]
  dsimp only
  simp only [List.nil_append, List.length_nil]
  rfl

/-- C6: when a second Engine instance is seeded through prev_weights with the
per-chunk updates recorded by a first instance's call, splitting the second
instance's input at an arbitrary point k — chunk-aligned or not — into two
state-threaded calls that pass the same prev_weights reproduces the
single-call retrieved output exactly over ℚ, which subsumes the 1e-6
tolerance of the claim. -/
theorem prev_weights_residual_split_equiv {τ : Type} (cfg1 cfg2 : Cfg τ)
    (S T : List τ) (k : Nat) :
    (process cfg2 ((process cfg1 [] (initState cfg1) S).2).updates
        (initState cfg2) T).1 =
      (process cfg2 ((process cfg1 [] (initState cfg1) S).2).updates
          (initState cfg2) (T.take k)).1
      ++ (process cfg2 ((process cfg1 [] (initState cfg1) S).2).updates
          ((process cfg2 ((process cfg1 [] (initState cfg1) S).2).updates
            (initState cfg2) (T.take k)).2) (T.drop k)).1 := by
  generalize ((process cfg1 [] (initState cfg1) S).2).updates = pw
  rw [← stateAfter_nil cfg2 pw]
  conv_lhs => rw [← List.take_append_drop k T]
  exact process_append_out cfg2 pw [] [] (T.take k) (T.drop k)

/-- C7: shape preservation — the retrieved output of process has exactly the
length of the input sequence, for every configuration (chunk size, activation,
attention pooling, momentum, qk_rmsnorm, clipping, learning-rate modulation
and memory-model maps are all fields of the quantified configuration) and
every incoming state; tokens are mapped within their type τ, so the feature
shape is preserved by typing, and the batch dimension is the independent
channel the whole model is stated over. -/
theorem process_shape_preservation {τ : Type} (cfg : Cfg τ) (pw : List ℚ)
    (st : MemoryState τ) (input : List τ) :
    ((process cfg pw st input).1).length = input.length := by
  simp only [process]
  rw [mapWithPos_length]

/-! ## Lemmas: batch-size grouping -/

theorem splitList_flatten {τ : Type} (sizes : List Nat) (l : List τ)
    (h : sizes.sum = l.length) : (splitList sizes l).flatten = l := by
  induction sizes generalizing l with
  | nil =>
    have hl : l = [] := by
      simp only [List.sum_nil] at h
      exact (List.length_eq_zero.mp h.symm)
    simp [splitList, hl]
  | cons n ns ih =>
    simp only [splitList, List.flatten_cons]
    rw [ih (l.drop n) (by simp only [List.length_drop, List.sum_cons] at h ⊢; omega)]
    exact List.take_append_drop n l

theorem splitAtBoundaries_sum (bs si len : Nat) :
    (splitAtBoundaries bs si len).sum = len := by
  rcases Nat.eq_zero_or_pos bs with h | h
  · simp [splitAtBoundaries, h]
  · have hbs : ¬ bs = 0 := by omega
    simp only [splitAtBoundaries, if_neg hbs]
    have hfle : min (bs - si % bs) len ≤ len := min_le_right _ _
    have hdm := Nat.div_add_mod (len - min (bs - si % bs) len) bs
    have hcomm : (len - min (bs - si % bs) len) / bs * bs
        = bs * ((len - min (bs - si % bs) len) / bs) := Nat.mul_comm _ _
    have hrep : (List.replicate ((len - min (bs - si % bs) len) / bs) bs).sum
        = (len - min (bs - si % bs) len) / bs * bs := List.sum_const_nat _ _
    split_ifs with h0
    · simp only [List.sum_append, List.sum_cons, List.sum_nil, hrep]
      omega
    · simp only [List.sum_append, List.sum_cons, List.sum_nil, hrep]
      omega

theorem processB_spec {τ : Type} (cfg : Cfg τ) (pw : List ℚ) (bs : Nat)
    (H : List τ) (u : List ℚ) (S : List τ) :
    ∃ u2, processB cfg pw bs (stateAfter cfg pw H u) S =
      (mapWithPos (retrievedDenote cfg pw (H ++ S)) H.length S,
       stateAfter cfg pw (H ++ S) u2) := by
  unfold processB
  have hsum : (splitAtBoundaries bs (stateAfter cfg pw H u).seq_index
      S.length).sum = S.length := splitAtBoundaries_sum _ _ _
  have hflat : (splitList (splitAtBoundaries bs
      (stateAfter cfg pw H u).seq_index S.length) S).flatten = S :=
    splitList_flatten _ _ hsum
  obtain ⟨u2, h⟩ := processPieces_spec cfg pw
    (splitList (splitAtBoundaries bs (stateAfter cfg pw H u).seq_index
      S.length) S) H u
  rw [hflat] at h
  exact ⟨u2, h⟩

/-- C5: the batch_size parameter is a pure performance knob — for every
grouping size bs, the retrieved output of the grouped call processB equals
that of the ungrouped process on the same input (first conjunct), and, with
batch_size set, chunk-aligned sequential chaining with state threading still
matches the single grouped call (second conjunct); both exactly over ℚ, which
subsumes the 1e-5 tolerance of the claim. -/
theorem process_batch_size_invariance {τ : Type} (cfg : Cfg τ) (pw : List ℚ)
    (bs : Nat) (S A B : List τ) :
    ((processB cfg pw bs (initState cfg) S).1
        = (process cfg pw (initState cfg) S).1)
    ∧ (cfg.cs ∣ A.length →
        (processB cfg pw bs (initState cfg) (A ++ B)).1 =
          (processB cfg pw bs (initState cfg) A).1
          ++ (processB cfg pw bs
              ((processB cfg pw bs (initState cfg) A).2) B).1) := by
  constructor
  · rw [← stateAfter_nil cfg pw]
    obtain ⟨u2, h⟩ := processB_spec cfg pw bs [] [] S
    rw [h, process_spec]
  · intro hdvd
    clear hdvd
    rw [← stateAfter_nil cfg pw]
    obtain ⟨uA, hA⟩ := processB_spec cfg pw bs [] [] A
    obtain ⟨uAB, hAB⟩ := processB_spec cfg pw bs [] [] (A ++ B)
    obtain ⟨uB, hB⟩ := processB_spec cfg pw bs ([] ++ A) uA B
    rw [hA, hAB]
    dsimp only
    rw [hB]
    dsimp only
    simp only [List.nil_append, List.length_nil]
    rw [mapWithPos_append]
    simp only [Nat.zero_add]
    congr 1
    refine mapWithPos_congr _ _ _ _ (fun p x hp1 hp2 => ?_)
    have hple : p ≤ A.length := by omega
    have hstab := retrievedDenote_stable cfg pw A B [] p x hple
    rw [List.append_nil] at hstab
    exact hstab

/-- Witness for the batch-size invariance: the claim theorem applied at an
explicit configuration (chunk size 2, batch size 4), an explicit input, and a
chunk-aligned chaining split, with the alignment hypothesis discharged by an
explicit divisor. -/
theorem process_batch_size_invariance_witness :
    (cfgEx.cs ∣ ([1, 2] : List ℚ).length) ∧
    ((processB cfgEx [] 4 (initState cfgEx) [1, 2, 3]).1
        = (process cfgEx [] (initState cfgEx) [1, 2, 3]).1) ∧
    ((processB cfgEx [] 4 (initState cfgEx) (([1, 2] : List ℚ) ++ [3])).1 =
        (processB cfgEx [] 4 (initState cfgEx) [1, 2]).1
        ++ (processB cfgEx [] 4
            ((processB cfgEx [] 4 (initState cfgEx) [1, 2]).2) [3]).1) :=
  ⟨⟨1, rfl⟩,
   (process_batch_size_invariance cfgEx [] 4 [1, 2, 3] [1, 2] [3]).1,
   (process_batch_size_invariance cfgEx [] 4 [1, 2, 3] [1, 2] [3]).2 ⟨1, rfl⟩⟩

/-- C9: a malformed configuration — a non-positive chunk size, an
incompatible retrieve/store chunk-size pairing, or an unsupported
memory-model variant — is exactly what makes create fail with a
ConfigurationError (first conjunct, an if-and-only-if characterisation at
construction time); and process is a total function whose result type has no
error alternative, so no configuration error can be raised mid-sequence
during process calls (second conjunct). -/
theorem create_config_validation (compat : Int → Int → Bool) (c : RawConfig) :
    ((∃ e, create compat c = Except.error e) ↔
      (c.retrieve_chunk_size ≤ 0 ∨ c.store_chunk_size ≤ 0 ∨
        compat c.retrieve_chunk_size c.store_chunk_size = false ∨
        ¬ c.memory_model ∈ supportedMemoryModels))
    ∧ (∀ (cfg : Cfg ℚ) (pw : List ℚ) (st : MemoryState ℚ) (input : List ℚ),
        ∃ out st2, process cfg pw st input = (out, st2)) := by
  constructor
  · unfold create
    split_ifs with h1 h2 h3
    · constructor
      · intro _
        rcases h1 with h | h
        · exact Or.inl h
        · exact Or.inr (Or.inl h)
      · intro _
        exact ⟨_, rfl⟩
    · constructor
      · intro _
        exact Or.inr (Or.inr (Or.inl h2))
      · intro _
        exact ⟨_, rfl⟩
    · constructor
      · rintro ⟨e, he⟩
        exact he.elim
      · intro hr
        rcases hr with h | h | h | h
        · exact absurd (Or.inl h) h1
        · exact absurd (Or.inr h) h1
        · exact absurd h h2
        · exact absurd h3 h
    · constructor
      · intro _
        exact Or.inr (Or.inr (Or.inr h3))
      · intro _
        exact ⟨_, rfl⟩
  · intro cfg pw st input
    exact ⟨(process cfg pw st input).1, (process cfg pw st input).2, rfl⟩

/-! ## Lemmas: Memory-as-Context sampling -/

theorem length_attnOuts {τ σ : Type} (mc : MacCfg τ σ) (a : σ) (xs : List τ) :
    (attnOuts mc a xs).length = xs.length := by
  induction xs generalizing a with
  | nil => rfl
  | cons x xs ih => simp [attnOuts, ih]

theorem attnOuts_append {τ σ : Type} (mc : MacCfg τ σ) (a : σ) (A B : List τ) :
    attnOuts mc a (A ++ B) = attnOuts mc a A ++ attnOuts mc (attnFinal mc a A) B := by
  induction A generalizing a with
  | nil => simp [attnOuts, attnFinal]
  | cons x xs ih => simp [attnOuts, attnFinal, ih]

theorem attnFinal_snoc {τ σ : Type} (mc : MacCfg τ σ) (a : σ) (A : List τ)
    (x : τ) :
    attnFinal mc a (A ++ [x]) = (mc.attnStep (attnFinal mc a A) x).2 := by
  induction A generalizing a with
  | nil => simp [attnFinal]
  | cons y ys ih => simp [attnFinal, ih]

theorem getLast_or_shift {τ : Type} (c : τ) (l : List τ) (last0 : Option τ) :
    ((c :: l).getLast?).or last0 = (l.getLast?).or (some c) := by
  cases l with
  | nil => simp
  | cons y ys =>
    rw [List.getLast?_cons_cons]
    cases h : (y :: ys).getLast? with
    | none => simp at h
    | some z => simp [h]

theorem ctxOuts_cons {τ σ : Type} (mc : MacCfg τ σ) (hx : List τ) (a : σ)
    (x : τ) (xs : List τ) :
    ctxOuts mc hx a (x :: xs) =
      mc.combine (mc.attnStep a x).1
          (retrievedDenote mc.mem mc.pw (hx ++ x :: xs) hx.length x)
        :: ctxOuts mc (hx ++ [x]) (mc.attnStep a x).2 xs := by
  unfold ctxOuts
  simp only [attnOuts, mapWithPos, List.zipWith_cons_cons]
  congr 1
  have hassoc : (hx ++ [x]) ++ xs = hx ++ x :: xs := by simp
  rw [hassoc]
  simp only [List.length_append, List.length_cons, List.length_nil]

theorem ctxOuts_snoc {τ σ : Type} (mc : MacCfg τ σ) (a : σ) (xs : List τ)
    (x : τ) :
    ctxOuts mc [] a (xs ++ [x]) =
      ctxOuts mc [] a xs ++
        [mc.combine (mc.attnStep (attnFinal mc a xs) x).1
          (retrievedDenote mc.mem mc.pw (xs ++ [x]) xs.length x)] := by
  unfold ctxOuts
  simp only [List.nil_append, List.length_nil]
  rw [attnOuts_append, mapWithPos_append,
    List.zipWith_append _ _ _ _ _ (by rw [length_attnOuts, mapWithPos_length])]
  congr 1
  · congr 1
    refine mapWithPos_congr _ _ _ _ (fun p x2 hp1 hp2 => ?_)
    have hstab := retrievedDenote_stable mc.mem mc.pw xs [x] [] p x2 (by omega)
    rw [List.append_nil] at hstab
    exact hstab
  · simp [attnOuts, mapWithPos]

theorem macPrompt_spec {τ σ : Type} (mc : MacCfg τ σ) (ids : List Nat)
    (hx : List τ) (u : List ℚ) (a : σ) (last0 : Option τ) :
    ∃ u2, macPrompt mc (stateAfter mc.mem mc.pw hx u, a) last0 ids =
      ((ctxOuts mc hx a (ids.map mc.embed)).getLast?.or last0,
       (stateAfter mc.mem mc.pw (hx ++ ids.map mc.embed) u2,
        attnFinal mc a (ids.map mc.embed))) := by
  induction ids generalizing hx u a last0 with
  | nil =>
    exact ⟨u, by simp [macPrompt, ctxOuts, attnOuts, attnFinal, mapWithPos]⟩
  | cons id rest ih =>
    obtain ⟨u1, h1⟩ := process_one_step_spec mc.mem mc.pw hx u (mc.embed id)
    obtain ⟨u2, h2⟩ := ih (hx ++ [mc.embed id]) u1 ((mc.attnStep a (mc.embed id)).2)
      (some (mc.combine (mc.attnStep a (mc.embed id)).1
        (retrievedDenote mc.mem mc.pw (hx ++ [mc.embed id]) hx.length
          (mc.embed id))))
    have hassoc : (hx ++ [mc.embed id]) ++ rest.map mc.embed
        = hx ++ (mc.embed id :: rest.map mc.embed) := by simp
    rw [hassoc] at h2
    refine ⟨u2, ?_⟩
    simp only [macPrompt, macStep, List.map_cons]
    rw [h1]
    dsimp only
    rw [h2]
    rw [ctxOuts_cons, getLast_or_shift]
    have hstab := retrievedDenote_stable mc.mem mc.pw hx [mc.embed id]
      (mc.embed id :: rest.map mc.embed) hx.length (mc.embed id) (le_refl _)
    rw [hstab]
    rfl

theorem forwardFull_eq_ctx {τ σ : Type} (mc : MacCfg τ σ) (ids : List Nat) :
    forwardFull mc ids = (ctxOuts mc [] mc.attnInit (ids.map mc.embed)).getLast? := by
  simp only [forwardFull, ctxOuts]
  rw [← stateAfter_nil mc.mem mc.pw, process_spec]

theorem sample_cache_invariant {τ σ : Type} (mc : MacCfg τ σ) (n : Nat) :
    ∀ (seq : List Nat) (u : List ℚ) (lastOut : Option τ),
      lastOut = (ctxOuts mc [] mc.attnInit (seq.map mc.embed)).getLast? →
      sampleCacheAux mc seq
        (stateAfter mc.mem mc.pw (seq.map mc.embed) u,
         attnFinal mc mc.attnInit (seq.map mc.embed))
        lastOut n
      = sampleFullAux mc seq n := by
  induction n with
  | zero => intro seq u lastOut hlast; rfl
  | succ n ih =>
    intro seq u lastOut hlast
    cases lastOut with
    | none =>
      have hff : forwardFull mc seq = none := by
        rw [forwardFull_eq_ctx, ← hlast]
      simp [sampleCacheAux, sampleFullAux, hff]
    | some o =>
      have hff : forwardFull mc seq = some o := by
        rw [forwardFull_eq_ctx, ← hlast]
      simp only [sampleCacheAux, sampleFullAux, hff]
      obtain ⟨u1, h1⟩ := process_one_step_spec mc.mem mc.pw (seq.map mc.embed) u
        (mc.embed (mc.head o))
      simp only [macStep]
      rw [h1]
      dsimp only
      have hmap : (seq ++ [mc.head o]).map mc.embed
          = seq.map mc.embed ++ [mc.embed (mc.head o)] := by simp
      have hC1 : (some (mc.combine
            ((mc.attnStep (attnFinal mc mc.attnInit (seq.map mc.embed))
              (mc.embed (mc.head o))).1)
            (retrievedDenote mc.mem mc.pw
              (seq.map mc.embed ++ [mc.embed (mc.head o)])
              (seq.map mc.embed).length (mc.embed (mc.head o)))) : Option τ)
          = (ctxOuts mc [] mc.attnInit
              ((seq ++ [mc.head o]).map mc.embed)).getLast? := by
        rw [hmap, ctxOuts_snoc, List.getLast?_concat]
      have hih := ih (seq ++ [mc.head o]) u1 _ hC1
      rw [hmap, attnFinal_snoc] at hih
      exact hih

/-- C10: during incremental sampling by the Memory-as-Context Transformer,
one-step Engine calls interleaved with one-step attention-cache calls preserve
the chunk-causal lag invariant: greedy (temperature-zero) sampling of any
number of tokens from any prompt with the incremental cache enabled produces
exactly the same token sequence as sampling with the cache disabled, for every
transformer boundary configuration (Engine configuration, shared prev_weights,
attention block, embedding, residual gate and readout head). -/
theorem mac_sampling_cache_equiv {τ σ : Type} (mc : MacCfg τ σ)
    (prompt : List Nat) (n : Nat) :
    sampleWithCache mc prompt n = sampleNoCache mc prompt n := by
  unfold sampleWithCache sampleNoCache
  rw [show (initState mc.mem, mc.attnInit)
      = (stateAfter mc.mem mc.pw ([] : List τ) [], mc.attnInit) from by
    rw [stateAfter_nil]]
  obtain ⟨u2, h⟩ := macPrompt_spec mc prompt [] [] mc.attnInit none
  rw [h]
  dsimp only
  rw [Option.or_none]
  simp only [List.nil_append]
  exact sample_cache_invariant mc n prompt u2 _ rfl
